import Mathlib

/-!
Verification development for the QR cipher bot (`src/app.py`).

The program validates a full-name subject ("FIO"), seals it with Fernet
authenticated encryption into a token, renders the token as a QR image,
and redeems tokens at most once through a Postgres ledger of token
fingerprints with a conditional insert.

Modelling conventions:
* A Python string is a sequence of Unicode code points, embedded as
  `List Nat` (`Text`).
* The external `cryptography.fernet` library is not part of the
  repository source; it is modelled symbolically (`Msg`): a message is
  either an ordinary string or the token string produced by
  `fernet.encrypt` under some key and nonce.  Decryption succeeds
  exactly on tokens sealed under the matching key.
* The external QR detector (`cv2.QRCodeDetector`) is modelled as the
  pair of oracle answers attached to an image, and `qrcode`'s PNG
  renderer as the image identified by its payload.
* The Postgres `INSERT ... ON CONFLICT DO NOTHING` primitive is
  modelled as a conditional insert into a list of fingerprints.
-/

namespace PosviatBot

/-- A Python string: a finite sequence of Unicode code points. -/
abbrev Text := List Nat

/-- Embed a Lean string literal as a `Text` (sequence of code points). -/
def strToText (s : String) : Text := s.toList.map Char.toNat

/-! ### Subject validator (src/app.py, `NAME_RE` lines 44-50 and
`_normalize_fio` lines 58-63) -/

/-- The character class `[A-Za-zА-Яа-яЁё]` of `NAME_RE`.
`А-Я` is U+0410..U+042F (1040..1071), `а-я` is U+0430..U+044F
(1072..1103); the two ranges are contiguous.  `Ё` is U+0401 (1025) and
`ё` is U+0451 (1105). -/
def isNameLetter (n : Nat) : Bool :=
  (65 ≤ n && n ≤ 90) || (97 ≤ n && n ≤ 122) ||
  (1040 ≤ n && n ≤ 1103) || n = 1025 || n = 1105

/-- The joiners `[-']` allowed inside a name component:
hyphen-minus (45) and apostrophe (39). -/
def isJoiner (n : Nat) : Bool := n = 45 || n = 39

/-- A code point that may occur inside a name component. -/
def isWordChar (n : Nat) : Bool := isNameLetter n || isJoiner n

/-- Python's whitespace class: the code points matched by `\s` in a
unicode pattern / stripped by `str.strip()`. -/
def pySpace (n : Nat) : Bool :=
  n = 32 || (9 ≤ n && n ≤ 13) || (28 ≤ n && n ≤ 31) || n = 133 ||
  n = 160 || n = 5760 || (8192 ≤ n && n ≤ 8202) || n = 8232 ||
  n = 8233 || n = 8239 || n = 8287 || n = 12288

/-- `str.strip()`: remove leading and trailing whitespace. -/
def pyStrip (s : Text) : Text :=
  ((s.dropWhile pySpace).reverse.dropWhile pySpace).reverse

/-- Map a lower-case letter of the accepted alphabet to upper case
(`a-z`, `а-я` are 32 below their capitals; `ё` (1105) maps to `Ё`
(1025)); other code points are unchanged. -/
def toUpperN (n : Nat) : Nat :=
  if (97 ≤ n && n ≤ 122) || (1072 ≤ n && n ≤ 1103) then n - 32
  else if n = 1105 then 1025
  else n

/-- Map an upper-case letter of the accepted alphabet to lower case;
other code points are unchanged. -/
def toLowerN (n : Nat) : Nat :=
  if (65 ≤ n && n ≤ 90) || (1040 ≤ n && n ≤ 1071) then n + 32
  else if n = 1025 then 1105
  else n

/-- Python `str.title()` on the accepted alphabet: a letter is
upper-cased when it follows a non-letter (or starts the string) and
lower-cased otherwise; non-letters pass through and reset the
boundary. -/
def pyTitleAux : Bool → Text → Text
  | _, [] => []
  | capNext, c :: cs =>
    if isNameLetter c then
      (if capNext then toUpperN c else toLowerN c) :: pyTitleAux false cs
    else
      c :: pyTitleAux true cs

/-- `str.title()`. -/
def pyTitle (s : Text) : Text := pyTitleAux true s

/-- Tail of a name component after its leading letter: the regex
fragment `(?:[-'][A-Za-zА-Яа-яЁё]+)*` interleaved with further letters,
i.e. letters and joiner-letter pairs. -/
def compRest : Text → Bool
  | [] => true
  | [c] => isNameLetter c
  | c :: d :: ds =>
    if isNameLetter c then compRest (d :: ds)
    else isJoiner c && isNameLetter d && compRest ds

/-- One capture group of `NAME_RE`:
`[A-Za-zА-Яа-яЁё]+(?:[-'][A-Za-zА-Яа-яЁё]+)*`. -/
def compOk : Text → Bool
  | [] => false
  | c :: cs => isNameLetter c && compRest cs

/-- Split into maximal runs of non-whitespace characters (the
accumulator holds the current run reversed). -/
def wordsOfAux : Text → Text → List Text
  | cur, [] => if cur.isEmpty then [] else [cur.reverse]
  | cur, c :: cs =>
    if pySpace c then
      if cur.isEmpty then wordsOfAux [] cs else cur.reverse :: wordsOfAux [] cs
    else wordsOfAux (c :: cur) cs

/-- The whitespace-separated runs of a string. -/
def wordsOf (s : Text) : List Text := wordsOfAux [] s

/-- `NAME_RE.match`: the anchored pattern matches exactly when the
input consists of word characters and whitespace only, the maximal
non-whitespace runs number two or three, and each run is a valid
component; the capture groups are then those runs. -/
def nameMatch (s : Text) : Option (List Text) :=
  if s.all (fun c => isWordChar c || pySpace c) then
    let ws := wordsOf s
    if (ws.length = 2 || ws.length = 3) && ws.all compOk then some ws
    else none
  else none

/-- `" ".join(parts)`. -/
def joinSpace : List Text → Text
  | [] => []
  | [w] => w
  | w :: ws => w ++ (32 :: joinSpace ws)

/-- `_normalize_fio` (src/app.py lines 58-63): match against `NAME_RE`,
then `" ".join(p.strip().title() for p in parts)`. -/
def normalizeFio (s : Text) : Option Text :=
  (nameMatch s).map (fun ws => joinSpace (ws.map (fun w => pyTitle (pyStrip w))))

/-! ### Token codec (src/app.py, `_encrypt_text` lines 65-67 and
`_decrypt_text` lines 69-70) -/

/-- Modelled from the spec: the `cryptography.fernet` library is not in
the repository source.  Symbolic model of the strings exchanged with
the bot: `str s` is an ordinary string (including garbage, truncated or
tampered token text — anything that is not a well-formed sealed token),
and `ftok key nonce plain` is the token string produced by
`fernet.encrypt(plain)` under the symmetric `key` with the random
`nonce`.  Distinct constructor arguments stand for distinct strings
(Fernet token encoding is injective). -/
inductive Msg where
  | str (s : Text)
  | ftok (key nonce : Nat) (plain : Text)
deriving DecidableEq

/-- `_encrypt_text`: seal `plain` under `key` with a fresh `nonce`. -/
def encryptText (key nonce : Nat) (plain : Text) : Msg :=
  Msg.ftok key nonce plain

/-- `_decrypt_text`: `fernet.decrypt` verifies the integrity tag and
decrypts.  In the symbolic model the tag verifies exactly on tokens
sealed under the same key; every other input raises `InvalidToken`,
rendered as `none` — one failure value for wrong key, tampering and
non-token input alike. -/
def decryptText (key : Nat) : Msg → Option Text
  | Msg.str _ => none
  | Msg.ftok k _ p => if k = key then some p else none

/-! ### Fingerprints and the redemption ledger (src/app.py,
`_token_fingerprint` line 102-103 and `_mark_token_used` lines
127-135) -/

/-- Modelled from the spec: `hashlib.sha256` is not in the repository
source.  A fingerprint is a deterministic, collision-resistant digest
of the token text, idealised as an injective tagging of the message. -/
structure Fingerprint where
  digestOf : Msg
deriving DecidableEq

/-- `_token_fingerprint`: the sha256 hex digest of the token text. -/
def tokenFingerprint (m : Msg) : Fingerprint := ⟨m⟩

/-- The `used_tokens` table: the set of claimed fingerprints. -/
abbrev Ledger := List Fingerprint

/-- Modelled from the spec: the Postgres
`INSERT ... ON CONFLICT DO NOTHING` primitive executed by
`_mark_token_used` — a single atomic conditional insert.  Returns
whether a row was actually inserted (`res.endswith(" 1")`), together
with the new table state. -/
def condInsert (fp : Fingerprint) (st : Ledger) : Bool × Ledger :=
  if fp ∈ st then (false, st) else (true, fp :: st)

/-- `_mark_token_used`: fingerprint the token text, then conditionally
insert the fingerprint. -/
def markTokenUsed (tok : Msg) (st : Ledger) : Bool × Ledger :=
  condInsert (tokenFingerprint tok) st

/-- A sequence of ledger claim operations, applied in order; returns
the list of their boolean results and the final table state.  Because
each claim is a single atomic storage operation, any interleaving of
concurrent claims is one such sequence. -/
def runClaims : List Fingerprint → Ledger → List Bool × Ledger
  | [], st => ([], st)
  | f :: fs, st =>
    let r := condInsert f st
    let rest := runClaims fs r.2
    (r.1 :: rest.1, rest.2)

/-- How many claims of fingerprint `f` in the sequence `ops`, run from
state `st`, return `true`. -/
def trueClaimCount (f : Fingerprint) : List Fingerprint → Ledger → Nat
  | [], _ => 0
  | g :: gs, st =>
    let r := condInsert g st
    (if g = f ∧ r.1 = true then 1 else 0) + trueClaimCount f gs r.2

/-! ### Optical code codec (src/app.py, `_make_qr_png_bytes` lines
72-79 and `_decode_qr` lines 90-100) -/

/-- Modelled from the spec: the `qrcode` renderer is not in the
repository source, and the spec's data model says an optical code image
"carries no independent identity beyond its embedded payload string" —
so the PNG is identified by its payload. -/
structure QrPng where
  payload : Msg
deriving DecidableEq

/-- `_make_qr_png_bytes`: render the payload as a QR PNG. -/
def makeQrPngBytes (payload : Msg) : QrPng := ⟨payload⟩

/-- Modelled from the spec: `cv2.QRCodeDetector` is not in the
repository source.  An image carries the two oracle answers the
detector would give on it: `single` is the text returned by
`detectAndDecode` (the empty string on failure), `multi` the list of
decoded strings `detectAndDecodeMulti` would yield in its
`decoded_info` component — which the code, as written, never manages
to read (see `decodeQr`). -/
structure QrImg where
  single : Msg
  multi : List Msg
deriving DecidableEq

/-- Python truthiness of a decoded string: the empty string is falsy. -/
def msgIsEmptyText : Msg → Bool
  | Msg.str s => s.isEmpty
  | Msg.ftok _ _ _ => false

/-- How a call to `_decode_qr` ends: with a decoded (non-empty) text,
or with the `ValueError` raised at line 95. -/
inductive DecodeOutcome where
  | found (t : Msg)
  | valueError
deriving DecidableEq

/-- `_decode_qr` (src/app.py lines 90-100): run the single-code
detector; if its text is non-empty, return it.  Otherwise line 95
executes `texts, points, _ = detector.detectAndDecodeMulti(img_bgr)`,
unpacking the 4-tuple OpenCV returns — `(retval, decoded_info, points,
straight_qrcode)` — into three names, which raises `ValueError`: the
multi-code fallback never runs, the `multi` detections are never
consulted, and on this path the function raises instead of returning a
decode or `None`. -/
def decodeQr (img : QrImg) : DecodeOutcome :=
  if msgIsEmptyText img.single then DecodeOutcome.valueError
  else DecodeOutcome.found img.single

/-! ### Message handlers (src/app.py, `_handle_text` lines 144-175 and
`_handle_photo` lines 177-206) -/

/-- `str.strip()` lifted to messages.  A well-formed Fernet token
string is base64url text and carries no surrounding whitespace, so
stripping leaves it unchanged. -/
def msgStrip : Msg → Msg
  | Msg.str s => Msg.str (pyStrip s)
  | m => m

/-- `raw.startswith("/start")`.  A Fernet token string is base64url
text, which never contains `/`, so it never starts with `/start`. -/
def msgStartsWithStart : Msg → Bool
  | Msg.str s => s.take 6 = strToText "/start"
  | Msg.ftok _ _ _ => false

/-- `_normalize_fio` lifted to messages.  A Fernet token string is a
single base64url run with no whitespace, so it can never match the
two-or-three-component `NAME_RE`. -/
def msgNormalizeFio : Msg → Option Text
  | Msg.str s => normalizeFio s
  | Msg.ftok _ _ _ => none

/-- The reply `_handle_text` produces (identified by which
`bot.send_*` call runs, or by the exception that escapes). -/
inductive TextOutcome where
  | startReply
  | issued (png : QrPng)
  | decryptFailed
  | replayDetected
  | nameError
deriving DecidableEq

/-- `_handle_text` (src/app.py lines 144-175): strip the text; handle
`/start`; if the text validates as a FIO, seal it and send the QR;
otherwise treat it as a token: decrypt (failure → error reply), then
conditionally insert its fingerprint (`False` → replay reply).  When
the insert succeeds, line 174 evaluates `random.randint(18, 20)` — but
the module never imports `random`, so the success branch raises
`NameError` after the ledger was already updated and no reply carrying
the subject is ever sent. -/
def handleText (key nonce : Nat) (text : Msg) (st : Ledger) :
    TextOutcome × Ledger :=
  let raw := msgStrip text
  if msgStartsWithStart raw then (TextOutcome.startReply, st)
  else
    match msgNormalizeFio raw with
    | some fio =>
      (TextOutcome.issued (makeQrPngBytes (encryptText key nonce fio)), st)
    | none =>
      match decryptText key raw with
      | none => (TextOutcome.decryptFailed, st)
      | some _ =>
        let r := markTokenUsed raw st
        if r.1 then (TextOutcome.nameError, r.2)
        else (TextOutcome.replayDetected, r.2)

/-- The reply `_handle_photo` produces. -/
inductive PhotoOutcome where
  | noPhoto
  | photoError
  | noCode
  | decryptFailed
  | replayDetected
  | redeemed (subject : Text)
deriving DecidableEq

/-- The photo message as the handler sees it: no photo sizes attached,
bytes that `cv2.imdecode` rejects (the raised `ValueError` is caught by
the handler's outer `except`), or a decodable image. -/
inductive PhotoInput where
  | noPhotos
  | badImage
  | image (img : QrImg)
deriving DecidableEq

/-- `_handle_photo` (src/app.py lines 177-206): download and decode the
image, run `_decode_qr` (its line-95 `ValueError` is caught by the
handler's outer `except` as the generic photo error; the `if not
qr_text` "not recognised" reply is unreachable, since `_decode_qr`
returns only non-empty text), decrypt the decoded text (failure →
error reply), conditionally insert the fingerprint (`False` → replay
reply), and on success reply with the decrypted subject. -/
def handlePhoto (key : Nat) (inp : PhotoInput) (st : Ledger) :
    PhotoOutcome × Ledger :=
  match inp with
  | PhotoInput.noPhotos => (PhotoOutcome.noPhoto, st)
  | PhotoInput.badImage => (PhotoOutcome.photoError, st)
  | PhotoInput.image img =>
    match decodeQr img with
    | DecodeOutcome.valueError => (PhotoOutcome.photoError, st)
    | DecodeOutcome.found t =>
      if msgIsEmptyText t then (PhotoOutcome.noCode, st)
      else
        match decryptText key t with
        | none => (PhotoOutcome.decryptFailed, st)
        | some plain =>
          let r := markTokenUsed t st
          if r.1 then (PhotoOutcome.redeemed plain, r.2)
          else (PhotoOutcome.replayDetected, r.2)

/-! ### Ledger lemmas -/

theorem mem_condInsert_of_mem (fp g : Fingerprint) (st : Ledger) (h : g ∈ st) :
    g ∈ (condInsert fp st).2 := by
  unfold condInsert
  split
  · exact h
  · exact List.mem_cons_of_mem _ h

theorem self_mem_condInsert (fp : Fingerprint) (st : Ledger) :
    fp ∈ (condInsert fp st).2 := by
  unfold condInsert
  split
  · assumption
  · exact List.mem_cons_self _ _

theorem condInsert_fst_iff (fp : Fingerprint) (st : Ledger) :
    (condInsert fp st).1 = true ↔ fp ∉ st := by
  unfold condInsert
  split <;> simp_all

theorem mem_runClaims_of_mem (ops : List Fingerprint) (st : Ledger)
    (g : Fingerprint) (h : g ∈ st) : g ∈ (runClaims ops st).2 := by
  induction ops generalizing st with
  | nil => exact h
  | cons a as ih =>
    simp only [runClaims]
    exact ih _ (mem_condInsert_of_mem a g st h)

theorem trueClaimCount_eq_zero (f : Fingerprint) (ops : List Fingerprint)
    (st : Ledger) (h : f ∈ st) : trueClaimCount f ops st = 0 := by
  induction ops generalizing st with
  | nil => rfl
  | cons g gs ih =>
    simp only [trueClaimCount]
    rw [ih _ (mem_condInsert_of_mem g f st h)]
    have hni : ¬(g = f ∧ (condInsert g st).1 = true) := by
      rintro ⟨rfl, hins⟩
      exact ((condInsert_fst_iff g st).1 hins) h
    simp [hni]

theorem trueClaimCount_eq (f : Fingerprint) (ops : List Fingerprint)
    (st : Ledger) (h : f ∉ st) :
    trueClaimCount f ops st = if f ∈ ops then 1 else 0 := by
  induction ops generalizing st with
  | nil => simp [trueClaimCount]
  | cons g gs ih =>
    by_cases hg : g = f
    · subst hg
      have h1 : (condInsert g st).1 = true := (condInsert_fst_iff g st).2 h
      simp only [trueClaimCount]
      rw [trueClaimCount_eq_zero g gs _ (self_mem_condInsert g st)]
      simp [h1]
    · have hf : f ∉ (condInsert g st).2 := by
        unfold condInsert
        split
        · exact h
        · intro hc
          rcases List.mem_cons.mp hc with h1 | h1
          · exact hg h1.symm
          · exact h h1
      simp only [trueClaimCount]
      rw [ih _ hf]
      have hfg : ¬f = g := fun h1 => hg h1.symm
      simp [hg, List.mem_cons, hfg]

/-- C1: across any sequence of claim operations run against the
ledger, a fingerprint `f` that starts absent is claimed successfully
exactly once — `true` is returned exactly on the first claim of `f`
(a single conditional insert returns `true` iff the fingerprint is
absent), every later claim of `f` returns `false` (the count of `true`
results for `f` is one when `f` is claimed at all, and zero
otherwise), and no entry present in the ledger is ever removed by any
sequence of claims. -/
theorem claim_exactly_once (f : Fingerprint) (ops : List Fingerprint)
    (st : Ledger) (h : f ∉ st) :
    trueClaimCount f ops st = (if f ∈ ops then 1 else 0) ∧
    (∀ g st', ((condInsert g st').1 = true ↔ g ∉ st')) ∧
    (∀ g, g ∈ st → g ∈ (runClaims ops st).2) :=
  ⟨trueClaimCount_eq f ops st h,
   fun g st' => condInsert_fst_iff g st',
   fun g hg => mem_runClaims_of_mem ops st g hg⟩

/-- Witness for C1 at a concrete input: two claims of the same
fingerprint from an empty ledger yield exactly one `true`. -/
theorem claim_exactly_once_witness :
    (⟨Msg.str []⟩ : Fingerprint) ∉ ([] : Ledger) ∧
    (trueClaimCount ⟨Msg.str []⟩ [⟨Msg.str []⟩, ⟨Msg.str []⟩] [] =
        (if (⟨Msg.str []⟩ : Fingerprint) ∈
            [(⟨Msg.str []⟩ : Fingerprint), ⟨Msg.str []⟩] then 1 else 0) ∧
      (∀ g st', ((condInsert g st').1 = true ↔ g ∉ st')) ∧
      (∀ g, g ∈ ([] : Ledger) →
        g ∈ (runClaims [⟨Msg.str []⟩, ⟨Msg.str []⟩] []).2)) :=
  ⟨by decide, claim_exactly_once ⟨Msg.str []⟩ [⟨Msg.str []⟩, ⟨Msg.str []⟩] []
    (by decide)⟩

/-! ### Token codec theorems -/

/-- C3: decrypting the token produced by sealing a subject under the
same process key yields exactly that subject. -/
theorem seal_open_roundtrip (key nonce : Nat) (s : Text) :
    decryptText key (encryptText key nonce s) = some s := by
  simp [decryptText, encryptText]

/-- C4: any input whose authentication tag does not verify under the
process key — a token sealed under a different key, a tampered or
truncated string, or a string that is not a well-formed token at all —
is rejected by decryption, and any two such inputs are rejected with
the identical failure result: no distinction between wrong key and
tampering is exposed. -/
theorem open_rejects_unauthenticated (key : Nat) (m m' : Msg)
    (h : ∀ nonce plain, m ≠ Msg.ftok key nonce plain)
    (h' : ∀ nonce plain, m' ≠ Msg.ftok key nonce plain) :
    decryptText key m = none ∧ decryptText key m = decryptText key m' := by
  have reject : ∀ x : Msg, (∀ nonce plain, x ≠ Msg.ftok key nonce plain) →
      decryptText key x = none := by
    intro x hx
    cases x with
    | str s => rfl
    | ftok k n p =>
      have hk : k ≠ key := by
        intro hk
        exact hx n p (by rw [hk])
      simp [decryptText, hk]
  rw [reject m h, reject m' h']
  exact ⟨rfl, rfl⟩

/-- Witness for C4: a garbage string and a token sealed under a
foreign key are both rejected, identically, under key 0. -/
theorem open_rejects_unauthenticated_witness :
    decryptText 0 (Msg.str [120]) = none ∧
    decryptText 0 (Msg.str [120]) = decryptText 0 (Msg.ftok 1 0 [65]) :=
  open_rejects_unauthenticated 0 (Msg.str [120]) (Msg.ftok 1 0 [65])
    (fun nonce plain => by simp)
    (fun nonce plain => by simp)

/-! ### Validator example theorems -/

/-- C6: the four examples of the validator contract: a well-formed
two-component name is returned as-is; a lower-case hyphenated name is
title-cased per hyphen-delimited sub-part; a single component is
rejected; digits are rejected. -/
theorem validate_examples :
    normalizeFio (strToText "Иванов Иван") = some (strToText "Иванов Иван") ∧
    normalizeFio (strToText "иван-петров артём") =
      some (strToText "Иван-Петров Артём") ∧
    normalizeFio (strToText "Иванов") = none ∧
    normalizeFio (strToText "Иванов123 Иван") = none := by
  refine ⟨?_, ?_, ?_, ?_⟩ <;> decide

/-! ### Optical decode -/

/-- C8 (code bug): whenever the single-code detection yields empty
text, `_decode_qr` reaches line 95, whose unpacking of the
`detectAndDecodeMulti` 4-tuple into three names raises `ValueError`;
the multi-code detections — whatever they hold, here quantified over
all of them — are never consulted, and the photo handler turns the
error into the generic photo-error reply, leaving the ledger
untouched.  The claimed fallback policy (return the first non-empty
multi decode, else nothing) is not what the code does. -/
theorem decode_multi_unpack_crash (key : Nat) (img : QrImg) (st : Ledger)
    (h : msgIsEmptyText img.single = true) :
    decodeQr img = DecodeOutcome.valueError ∧
    handlePhoto key (PhotoInput.image img) st = (PhotoOutcome.photoError, st) := by
  have hq : decodeQr img = DecodeOutcome.valueError := by
    simp [decodeQr, h]
  refine ⟨hq, ?_⟩
  simp [handlePhoto, hq]

/-- Witness for C8's failing input: an image whose single detection is
empty while its multi detections hold a decryptable token — which the
claimed policy would go on to redeem — crashes into the photo-error
reply instead. -/
theorem decode_multi_unpack_crash_witness :
    decodeQr ⟨Msg.str [], [Msg.ftok 0 1 [65]]⟩ = DecodeOutcome.valueError ∧
    handlePhoto 0 (PhotoInput.image ⟨Msg.str [], [Msg.ftok 0 1 [65]]⟩) [] =
      (PhotoOutcome.photoError, []) :=
  decode_multi_unpack_crash 0 ⟨Msg.str [], [Msg.ftok 0 1 [65]]⟩ [] (by decide)


/-! ### Handler lemmas -/

theorem handleText_ledger (key nonce : Nat) (m : Msg) (st : Ledger) :
    (handleText key nonce m st).2 = st ∨
    ∃ plain, decryptText key (msgStrip m) = some plain ∧
      (handleText key nonce m st).2 = tokenFingerprint (msgStrip m) :: st := by
  unfold handleText
  cases hs : msgStartsWithStart (msgStrip m) with
  | true => simp [hs]
  | false =>
    simp only [hs, Bool.false_eq_true, if_false]
    cases hn : msgNormalizeFio (msgStrip m) with
    | some fio => simp
    | none =>
      cases hd : decryptText key (msgStrip m) with
      | none => simp
      | some p =>
        simp only [markTokenUsed, condInsert]
        by_cases hm : tokenFingerprint (msgStrip m) ∈ st
        · simp [hm]
        · simp only [hm, if_false, if_true, if_neg hm]
          right
          exact ⟨p, rfl, by simp⟩

theorem handlePhoto_ledger (key : Nat) (inp : PhotoInput) (st : Ledger) :
    (handlePhoto key inp st).2 = st ∨
    ∃ tok plain, decryptText key tok = some plain ∧
      (handlePhoto key inp st).2 = tokenFingerprint tok :: st := by
  unfold handlePhoto
  cases inp with
  | noPhotos => simp
  | badImage => simp
  | image img =>
    cases hq : decodeQr img with
    | valueError => simp [hq]
    | found t =>
      cases he : msgIsEmptyText t with
      | true => simp [hq, he]
      | false =>
        cases hd : decryptText key t with
        | none => simp [hq, he, hd]
        | some p =>
          simp only [hq, he, hd, markTokenUsed, condInsert,
            Bool.false_eq_true, if_false]
          by_cases hm : tokenFingerprint t ∈ st
          · simp [hm]
          · simp only [hm, if_neg hm]
            right
            exact ⟨t, p, hd, by simp⟩

/-- C9: every fingerprint present in the ledger after either handler
runs was already present before, or is the fingerprint of a token that
decrypts successfully under the process key: the conditional insert is
issued only after `_decrypt_text` succeeded, so undecryptable or
tampered inputs never create ledger entries. -/
theorem ledger_only_decryptable (key nonce : Nat) (m : Msg)
    (inp : PhotoInput) (st : Ledger) (fp : Fingerprint)
    (h : fp ∈ (handleText key nonce m st).2 ∨
         fp ∈ (handlePhoto key inp st).2) :
    fp ∈ st ∨ ∃ tok plain, fp = tokenFingerprint tok ∧
      decryptText key tok = some plain := by
  rcases h with h | h
  · rcases handleText_ledger key nonce m st with heq | ⟨plain, hdec, heq⟩
    · exact Or.inl (heq ▸ h)
    · rw [heq] at h
      rcases List.mem_cons.mp h with rfl | h
      · exact Or.inr ⟨msgStrip m, plain, rfl, hdec⟩
      · exact Or.inl h
  · rcases handlePhoto_ledger key inp st with heq | ⟨tok, plain, hdec, heq⟩
    · exact Or.inl (heq ▸ h)
    · rw [heq] at h
      rcases List.mem_cons.mp h with rfl | h
      · exact Or.inr ⟨tok, plain, rfl, hdec⟩
      · exact Or.inl h

/-- Witness for C9: after a successful text-path claim of a valid
token on a fresh ledger, the single ledger entry is the fingerprint of
a token decryptable under the process key. -/
theorem ledger_only_decryptable_witness :
    (tokenFingerprint (Msg.ftok 0 7 [65]) ∈
        ([] : Ledger) ∨
      ∃ tok plain, tokenFingerprint (Msg.ftok 0 7 [65]) = tokenFingerprint tok ∧
        decryptText 0 tok = some plain) :=
  ledger_only_decryptable 0 0 (Msg.ftok 0 7 [65]) PhotoInput.noPhotos []
    (tokenFingerprint (Msg.ftok 0 7 [65])) (Or.inl (by decide))

/-- C2 (code bug): a valid token submitted as text against a fresh
ledger reaches the success branch, whose first statement
`rnd = random.randint(18, 20)` (src/app.py line 174) raises
`NameError` — the module never imports `random` — after the ledger was
already updated; the caller never receives the subject.  The photo
path, in contrast, does reply with exactly the decrypted subject. -/
theorem text_redeem_crashes_at_success :
    handleText 0 0 (Msg.ftok 0 7 (strToText "Иванов Иван")) [] =
      (TextOutcome.nameError,
        [tokenFingerprint (Msg.ftok 0 7 (strToText "Иванов Иван"))]) ∧
    handlePhoto 0
        (PhotoInput.image ⟨Msg.ftok 0 7 (strToText "Иванов Иван"), []⟩) [] =
      (PhotoOutcome.redeemed (strToText "Иванов Иван"),
        [tokenFingerprint (Msg.ftok 0 7 (strToText "Иванов Иван"))]) :=
  ⟨by decide, by decide⟩

/-- C10: when the conditional insert succeeds on the text path, the
attempt then fails (the `NameError` of line 174) — yet the ledger
entry remains: the handler returns the crashed outcome with the
fingerprint inserted, and every later redemption of the same token,
via text or via photo, observes the already-claimed fingerprint and
reports a replay, even though the first caller never received the
subject. -/
theorem claim_not_rolled_back (key nonce nonce' : Nat) (tok : Msg)
    (st : Ledger) (plain : Text)
    (hfio : msgNormalizeFio (msgStrip tok) = none)
    (hstart : msgStartsWithStart (msgStrip tok) = false)
    (hdec : decryptText key (msgStrip tok) = some plain)
    (hnew : tokenFingerprint (msgStrip tok) ∉ st) :
    handleText key nonce tok st =
      (TextOutcome.nameError, tokenFingerprint (msgStrip tok) :: st) ∧
    (handleText key nonce' tok
        (tokenFingerprint (msgStrip tok) :: st)).1 =
      TextOutcome.replayDetected ∧
    ∀ img : QrImg, decodeQr img = DecodeOutcome.found (msgStrip tok) →
      (handlePhoto key (PhotoInput.image img)
          (tokenFingerprint (msgStrip tok) :: st)).1 =
        PhotoOutcome.replayDetected := by
  refine ⟨?_, ?_, ?_⟩
  · unfold handleText
    simp [hstart, hfio, hdec, markTokenUsed, condInsert, hnew]
  · unfold handleText
    simp [hstart, hfio, hdec, markTokenUsed, condInsert]
  · intro img hq
    have hne : msgIsEmptyText (msgStrip tok) = false := by
      cases hmt : msgStrip tok with
      | str s =>
        rw [hmt] at hdec
        exact absurd hdec (by simp [decryptText])
      | ftok k n p => rfl
    unfold handlePhoto
    simp [hq, hne, hdec, markTokenUsed, condInsert]

/-- Witness for C10 at a concrete token, key and fresh ledger. -/
theorem claim_not_rolled_back_witness :
    handleText 0 1 (Msg.ftok 0 5 [1048]) [] =
      (TextOutcome.nameError,
        tokenFingerprint (msgStrip (Msg.ftok 0 5 [1048])) :: []) ∧
    (handleText 0 2 (Msg.ftok 0 5 [1048])
        (tokenFingerprint (msgStrip (Msg.ftok 0 5 [1048])) :: [])).1 =
      TextOutcome.replayDetected ∧
    ∀ img : QrImg,
      decodeQr img = DecodeOutcome.found (msgStrip (Msg.ftok 0 5 [1048])) →
      (handlePhoto 0 (PhotoInput.image img)
          (tokenFingerprint (msgStrip (Msg.ftok 0 5 [1048])) :: [])).1 =
        PhotoOutcome.replayDetected :=
  claim_not_rolled_back 0 1 2 (Msg.ftok 0 5 [1048]) [] [1048]
    (by decide) (by decide) (by decide) (by decide)

/-! ### Issue path -/

theorem nameMatch_legal (s : Text) (ws : List Text)
    (h : nameMatch s = some ws) :
    s.all (fun c => isWordChar c || pySpace c) = true := by
  unfold nameMatch at h
  split at h
  · assumption
  · exact absurd h (by simp)

theorem normalizeFio_legal (s : Text) (fio : Text)
    (h : normalizeFio s = some fio) :
    s.all (fun c => isWordChar c || pySpace c) = true := by
  unfold normalizeFio at h
  rcases Option.map_eq_some'.mp h with ⟨ws, hws, -⟩
  exact nameMatch_legal s ws hws

/-- A string that validates as a subject cannot start with `/start`:
`/` (code point 47) is neither a word character nor whitespace. -/
theorem normalizeFio_not_start (s : Text) (fio : Text)
    (h : normalizeFio s = some fio) : s.take 6 ≠ strToText "/start" := by
  intro htake
  have h47 : (47 : Nat) ∈ s := by
    cases s with
    | nil => exact absurd htake (by decide)
    | cons c cs =>
      have hc : c = 47 := by
        have : c :: cs.take 5 = strToText "/start" := by
          simpa [List.take] using htake
        injection this
      exact hc ▸ List.mem_cons_self _ _
  have hall := normalizeFio_legal s fio h
  have h47' := (List.all_eq_true.mp hall) 47 h47
  exact absurd h47' (by decide)

/-- C5 (counterexample to the claim as stated): for the raw text
`"Иванов"`, on which subject validation fails, the handler does not
report an invalid-subject outcome — no such outcome exists in the
code.  It falls through to the redemption path and, the text not being
a decryptable token, replies with the decryption-failure outcome. -/
theorem invalid_subject_falls_to_redeem :
    handleText 0 0 (Msg.str (strToText "Иванов")) [] =
      (TextOutcome.decryptFailed, []) := by decide

/-- C5 (amended): when validation of the (stripped) text succeeds, the
handler seals the normalized subject under the process key, renders it
as a QR PNG and returns the issued image, leaving the ledger unchanged
(a validated subject can never begin with `/start`, so the `/start`
branch is not taken); when validation fails and the text is not a
`/start` command, the handler instead treats the text as a token to
redeem, so the reply is the decryption-failure, replay, or
crashed-success outcome — never an invalid-format reply. -/
theorem issue_amended (key nonce : Nat) (m : Msg) (st : Ledger) :
    (∀ fio, msgNormalizeFio (msgStrip m) = some fio →
      handleText key nonce m st =
        (TextOutcome.issued (makeQrPngBytes (encryptText key nonce fio)), st)) ∧
    (msgNormalizeFio (msgStrip m) = none →
      msgStartsWithStart (msgStrip m) = false →
      (handleText key nonce m st).1 = TextOutcome.decryptFailed ∨
      (handleText key nonce m st).1 = TextOutcome.replayDetected ∨
      (handleText key nonce m st).1 = TextOutcome.nameError) := by
  constructor
  · intro fio hfio
    have hstart : msgStartsWithStart (msgStrip m) = false := by
      cases hm : msgStrip m with
      | ftok k n p => rw [hm] at hfio; exact absurd hfio (by simp [msgNormalizeFio])
      | str s =>
        rw [hm] at hfio
        simp only [msgNormalizeFio] at hfio
        simp only [msgStartsWithStart]
        exact decide_eq_false (normalizeFio_not_start s fio hfio)
    unfold handleText
    simp [hstart, hfio]
  · intro hfio hstart
    unfold handleText
    cases hd : decryptText key (msgStrip m) with
    | none => simp [hstart, hfio, hd]
    | some p =>
      simp only [hstart, hfio, hd, Bool.false_eq_true, if_false]
      by_cases hm : (markTokenUsed (msgStrip m) st).1 = true
      · simp [hm]
      · simp [hm]

/-- Witness for C5's amended claim: a lower-case raw name is issued as
the QR of the token sealing its normalization. -/
theorem issue_amended_witness :
    handleText 2 3 (Msg.str (strToText " иванов иван ")) [] =
      (TextOutcome.issued
        (makeQrPngBytes (encryptText 2 3 (strToText "Иванов Иван"))), []) :=
  (issue_amended 2 3 (Msg.str (strToText " иванов иван ")) []).1
    (strToText "Иванов Иван") (by decide)

/-! ### Title-casing lemmas -/

theorem isNameLetter_toUpperN (n : Nat) :
    isNameLetter (toUpperN n) = isNameLetter n := by
  rw [Bool.eq_iff_iff]
  simp only [isNameLetter, toUpperN, Bool.or_eq_true, Bool.and_eq_true,
    decide_eq_true_eq]
  split_ifs with h1 h2 <;>
    first
      | rfl
      | (constructor <;> intro h3 <;> omega)

theorem isNameLetter_toLowerN (n : Nat) :
    isNameLetter (toLowerN n) = isNameLetter n := by
  rw [Bool.eq_iff_iff]
  simp only [isNameLetter, toLowerN, Bool.or_eq_true, Bool.and_eq_true,
    decide_eq_true_eq]
  split_ifs with h1 h2 <;>
    first
      | rfl
      | (constructor <;> intro h3 <;> omega)

theorem toUpperN_toUpperN (n : Nat) : toUpperN (toUpperN n) = toUpperN n := by
  unfold toUpperN
  split_ifs <;>
    simp_all only [Bool.or_eq_true, Bool.and_eq_true, decide_eq_true_eq,
      Bool.or_eq_false_iff, Bool.and_eq_false_iff, decide_eq_false_iff_not,
      not_or, not_and] <;>
    omega

theorem toLowerN_toLowerN (n : Nat) : toLowerN (toLowerN n) = toLowerN n := by
  unfold toLowerN
  split_ifs <;>
    simp_all only [Bool.or_eq_true, Bool.and_eq_true, decide_eq_true_eq,
      Bool.or_eq_false_iff, Bool.and_eq_false_iff, decide_eq_false_iff_not,
      not_or, not_and] <;>
    omega

theorem not_pySpace_of_isWordChar (n : Nat) (h : isWordChar n = true) :
    pySpace n = false := by
  unfold isWordChar isNameLetter isJoiner at h
  unfold pySpace
  simp_all only [Bool.or_eq_true, Bool.and_eq_true, decide_eq_true_eq,
    Bool.or_eq_false_iff, Bool.and_eq_false_iff, decide_eq_false_iff_not]
  omega

theorem isWordChar_of_isNameLetter (n : Nat) (h : isNameLetter n = true) :
    isWordChar n = true := by
  simp [isWordChar, h]


theorem pyTitleAux_ne_nil (b : Bool) (c : Nat) (cs : Text) :
    pyTitleAux b (c :: cs) ≠ [] := by
  cases hl : isNameLetter c <;> simp [pyTitleAux, hl]

theorem all_isWordChar_pyTitleAux (b : Bool) (s : Text)
    (h : s.all isWordChar = true) :
    (pyTitleAux b s).all isWordChar = true := by
  induction s generalizing b with
  | nil => rfl
  | cons c cs ih =>
    rw [List.all_cons, Bool.and_eq_true] at h
    cases hl : isNameLetter c with
    | true =>
      simp only [pyTitleAux, hl, if_true, List.all_cons, Bool.and_eq_true]
      refine ⟨?_, ih false h.2⟩
      cases b with
      | true =>
        exact isWordChar_of_isNameLetter _ (by simp [isNameLetter_toUpperN, hl])
      | false =>
        exact isWordChar_of_isNameLetter _ (by simp [isNameLetter_toLowerN, hl])
    | false =>
      simp only [pyTitleAux, hl, Bool.false_eq_true, if_false, List.all_cons,
        Bool.and_eq_true]
      exact ⟨h.1, ih true h.2⟩

theorem pyTitleAux_idem (b : Bool) (s : Text) :
    pyTitleAux b (pyTitleAux b s) = pyTitleAux b s := by
  induction s generalizing b with
  | nil => rfl
  | cons c cs ih =>
    cases hl : isNameLetter c with
    | true =>
      cases b with
      | true =>
        simp [pyTitleAux, hl, isNameLetter_toUpperN, toUpperN_toUpperN, ih false]
      | false =>
        simp [pyTitleAux, hl, isNameLetter_toLowerN, toLowerN_toLowerN, ih false]
    | false =>
      simp [pyTitleAux, hl, ih true]

theorem compRest_all_wordChar : ∀ s : Text, compRest s = true →
    s.all isWordChar = true
  | [], _ => rfl
  | [c], h => by
    simp only [compRest] at h
    simp [isWordChar_of_isNameLetter c h]
  | c :: d :: ds, h => by
    simp only [compRest] at h
    cases hl : isNameLetter c with
    | true =>
      rw [hl] at h
      simp only [if_true] at h
      have ih := compRest_all_wordChar (d :: ds) h
      simp only [List.all_cons, Bool.and_eq_true] at ih ⊢
      exact ⟨isWordChar_of_isNameLetter c hl, ih⟩
    | false =>
      rw [hl] at h
      simp only [Bool.false_eq_true, if_false, Bool.and_eq_true] at h
      obtain ⟨⟨hj, hd⟩, hrest⟩ := h
      have ih := compRest_all_wordChar ds hrest
      simp only [List.all_cons, Bool.and_eq_true] at ih ⊢
      exact ⟨by simp [isWordChar, hj], ⟨isWordChar_of_isNameLetter d hd, ih⟩⟩

theorem compRest_pyTitleAux : ∀ s : Text, compRest s = true →
    compRest (pyTitleAux false s) = true
  | [], _ => rfl
  | [c], h => by
    simp only [compRest] at h
    simp [pyTitleAux, compRest, isNameLetter_toLowerN, h]
  | c :: d :: ds, h => by
    simp only [compRest] at h
    cases hl : isNameLetter c with
    | true =>
      rw [hl] at h
      simp only [if_true] at h
      have ih := compRest_pyTitleAux (d :: ds) h
      cases hd : isNameLetter d <;>
        simp_all [pyTitleAux, compRest, isNameLetter_toLowerN, hl, hd]
    | false =>
      rw [hl] at h
      simp only [Bool.false_eq_true, if_false, Bool.and_eq_true] at h
      obtain ⟨⟨hj, hd⟩, hrest⟩ := h
      have ih := compRest_pyTitleAux ds hrest
      simp [pyTitleAux, compRest, hl, hd, isNameLetter_toUpperN, hj, ih]

theorem compOk_pyTitle (s : Text) (h : compOk s = true) :
    compOk (pyTitle s) = true := by
  cases s with
  | nil => exact absurd h (by decide)
  | cons c cs =>
    simp only [compOk, Bool.and_eq_true] at h
    unfold pyTitle
    simp only [pyTitleAux, h.1, if_true]
    simp only [compOk, Bool.and_eq_true]
    exact ⟨by rw [isNameLetter_toUpperN]; exact h.1, compRest_pyTitleAux cs h.2⟩

theorem compOk_ne_nil (s : Text) (h : compOk s = true) : s ≠ [] := by
  intro hs
  subst hs
  exact absurd h (by decide)

theorem compOk_all_wordChar (s : Text) (h : compOk s = true) :
    s.all isWordChar = true := by
  cases s with
  | nil => exact absurd h (by decide)
  | cons c cs =>
    simp only [compOk, Bool.and_eq_true] at h
    simp only [List.all_cons, Bool.and_eq_true]
    exact ⟨isWordChar_of_isNameLetter c h.1, compRest_all_wordChar cs h.2⟩

theorem all_not_pySpace (s : Text) (h : s.all isWordChar = true) :
    ∀ c ∈ s, pySpace c = false :=
  fun c hc => not_pySpace_of_isWordChar c (List.all_eq_true.mp h c hc)

theorem dropWhile_eq_self (p : Nat → Bool) (s : Text)
    (h : ∀ c ∈ s, p c = false) : s.dropWhile p = s := by
  cases s with
  | nil => rfl
  | cons c cs =>
    rw [List.dropWhile_cons]
    simp [h c (List.mem_cons_self _ _)]

theorem pyStrip_eq_self (s : Text) (h : ∀ c ∈ s, pySpace c = false) :
    pyStrip s = s := by
  unfold pyStrip
  rw [dropWhile_eq_self _ _ h,
    dropWhile_eq_self _ _ (fun c hc => h c (List.mem_reverse.mp hc)),
    List.reverse_reverse]


theorem wordsOfAux_append (w acc l : Text)
    (hw : ∀ c ∈ w, pySpace c = false) :
    wordsOfAux acc (w ++ l) = wordsOfAux (w.reverse ++ acc) l := by
  induction w generalizing acc with
  | nil => simp
  | cons c cs ih =>
    have hc : pySpace c = false := hw c (List.mem_cons_self _ _)
    simp only [List.cons_append, wordsOfAux, hc, Bool.false_eq_true, if_false,
      List.append_eq]
    rw [ih (c :: acc) (fun x hx => hw x (List.mem_cons_of_mem _ hx))]
    congr 1
    simp

theorem wordsOf_joinSpace : ∀ ws : List Text,
    (∀ w ∈ ws, w ≠ [] ∧ ∀ c ∈ w, pySpace c = false) →
    wordsOf (joinSpace ws) = ws
  | [], _ => rfl
  | [w], h => by
    obtain ⟨hne, hns⟩ := h w (List.mem_cons_self _ _)
    show wordsOfAux [] (joinSpace [w]) = [w]
    have hj : joinSpace [w] = w ++ [] := by simp [joinSpace]
    rw [hj, wordsOfAux_append w [] [] hns, List.append_nil]
    cases hw' : w.reverse with
    | nil => exact absurd (by simpa using congrArg List.reverse hw') hne
    | cons a as =>
      simp only [wordsOfAux, hw', List.isEmpty_cons, Bool.false_eq_true,
        if_false]
      rw [← hw', List.reverse_reverse]
  | w :: w2 :: ws, h => by
    obtain ⟨hne, hns⟩ := h w (List.mem_cons_self _ _)
    show wordsOfAux [] (joinSpace (w :: w2 :: ws)) = w :: w2 :: ws
    have hj : joinSpace (w :: w2 :: ws) = w ++ (32 :: joinSpace (w2 :: ws)) :=
      rfl
    rw [hj, wordsOfAux_append w [] _ hns, List.append_nil]
    have h32 : pySpace 32 = true := by decide
    cases hw' : w.reverse with
    | nil => exact absurd (by simpa using congrArg List.reverse hw') hne
    | cons a as =>
      simp only [wordsOfAux, h32, if_true, hw', List.isEmpty_cons,
        Bool.false_eq_true, if_false]
      rw [← hw', List.reverse_reverse]
      exact congrArg _ (wordsOf_joinSpace (w2 :: ws)
        (fun v hv => h v (List.mem_cons_of_mem _ hv)))

theorem joinSpace_all (P : Nat → Bool) (h32 : P 32 = true) :
    ∀ ws : List Text, (∀ w ∈ ws, w.all P = true) →
      (joinSpace ws).all P = true
  | [], _ => rfl
  | [w], h => by
    have := h w (List.mem_cons_self _ _)
    simpa [joinSpace] using this
  | w :: w2 :: ws, h => by
    have hj : joinSpace (w :: w2 :: ws) = w ++ (32 :: joinSpace (w2 :: ws)) :=
      rfl
    rw [hj, List.all_append, List.all_cons]
    rw [h w (List.mem_cons_self _ _), h32,
      joinSpace_all P h32 (w2 :: ws) (fun v hv => h v (List.mem_cons_of_mem _ hv))]
    rfl

theorem all_mono (P Q : Nat → Bool) (s : Text)
    (himp : ∀ c, P c = true → Q c = true) (h : s.all P = true) :
    s.all Q = true :=
  List.all_eq_true.mpr (fun c hc => himp c (List.all_eq_true.mp h c hc))

theorem nameMatch_def (s : Text) :
    nameMatch s =
      if (s.all fun c => isWordChar c || pySpace c) then
        if ((wordsOf s).length = 2 || (wordsOf s).length = 3) &&
            (wordsOf s).all compOk then some (wordsOf s)
        else none
      else none := rfl

theorem nameMatch_some (s : Text) (ws : List Text) (h : nameMatch s = some ws) :
    (ws.length = 2 ∨ ws.length = 3) ∧ ∀ w ∈ ws, compOk w = true := by
  rw [nameMatch_def] at h
  split at h
  · split at h
    next hcond =>
      injection h with h
      subst h
      rw [Bool.and_eq_true, Bool.or_eq_true] at hcond
      refine ⟨?_, fun w hw => List.all_eq_true.mp hcond.2 w hw⟩
      rcases hcond.1 with h | h
      · exact Or.inl (of_decide_eq_true h)
      · exact Or.inr (of_decide_eq_true h)
    next => exact absurd h (by simp)
  · exact absurd h (by simp)

theorem normalizeFio_output (ws : List Text)
    (hlen : ws.length = 2 ∨ ws.length = 3)
    (hcomp : ∀ w ∈ ws, compOk w = true) :
    normalizeFio (joinSpace (ws.map (fun w => pyTitle (pyStrip w)))) =
      some (joinSpace (ws.map (fun w => pyTitle (pyStrip w)))) := by
  set f := fun w : Text => pyTitle (pyStrip w) with hf
  have hmap : ∀ w ∈ ws, f w = pyTitle w := by
    intro w hw
    simp only [hf]
    rw [pyStrip_eq_self w (all_not_pySpace w (compOk_all_wordChar w (hcomp w hw)))]
  have hcomp' : ∀ v ∈ ws.map f, compOk v = true := by
    intro v hv
    rcases List.mem_map.mp hv with ⟨w, hw, rfl⟩
    rw [hmap w hw]
    exact compOk_pyTitle w (hcomp w hw)
  have hwords : wordsOf (joinSpace (ws.map f)) = ws.map f :=
    wordsOf_joinSpace _ (fun v hv => ⟨compOk_ne_nil v (hcomp' v hv),
      all_not_pySpace v (compOk_all_wordChar v (hcomp' v hv))⟩)
  have hlegal : (joinSpace (ws.map f)).all
      (fun c => isWordChar c || pySpace c) = true := by
    refine joinSpace_all _ (by decide) _ (fun v hv => ?_)
    exact all_mono isWordChar _ v (fun c hc => by simp [hc])
      (compOk_all_wordChar v (hcomp' v hv))
  have hlen' : (ws.map f).length = 2 ∨ (ws.map f).length = 3 := by
    simpa using hlen
  have hcond : ((decide ((List.map f ws).length = 2) ||
        decide ((List.map f ws).length = 3)) &&
      (List.map f ws).all compOk) = true := by
    rw [Bool.and_eq_true, Bool.or_eq_true]
    refine ⟨?_, List.all_eq_true.mpr (fun v hv => hcomp' v hv)⟩
    rcases hlen' with h | h
    · exact Or.inl (decide_eq_true h)
    · exact Or.inr (decide_eq_true h)
  have hm : nameMatch (joinSpace (ws.map f)) = some (ws.map f) := by
    rw [nameMatch_def, if_pos hlegal]
    simp only [hwords]
    rw [if_pos hcond]
  have hfix : (ws.map f).map f = ws.map f := by
    rw [List.map_map]
    refine List.map_congr_left (fun w hw => ?_)
    show f (f w) = f w
    rw [hmap w hw]
    simp only [hf]
    rw [pyStrip_eq_self (pyTitle w)
      (all_not_pySpace _ (all_isWordChar_pyTitleAux true w
        (compOk_all_wordChar w (hcomp w hw))))]
    exact pyTitleAux_idem true w
  unfold normalizeFio
  rw [← hf, hm]
  simp only [Option.map_some']
  rw [hfix]

/-- C7: normalization is idempotent: whenever validation of a raw text
succeeds with result `s`, validating `s` itself succeeds and returns
`s` unchanged. -/
theorem normalize_idempotent (raw s : Text) (h : normalizeFio raw = some s) :
    normalizeFio s = some s := by
  rcases Option.map_eq_some'.mp (by simpa [normalizeFio] using h) with ⟨ws, hws, hs⟩
  obtain ⟨hlen, hcomp⟩ := nameMatch_some raw ws hws
  rw [← hs]
  exact normalizeFio_output ws hlen hcomp

/-- Witness for C7: the normalization of "иванов иван" is a fixed
point of the validator. -/
theorem normalize_idempotent_witness :
    normalizeFio (strToText "Иванов Иван") = some (strToText "Иванов Иван") :=
  normalize_idempotent (strToText "иванов иван") (strToText "Иванов Иван")
    (by decide)

end PosviatBot
